import Mathlib

/-!
Verification development for the Meshalyzer repository.  The repository's
Python sources provide the build configuration (src/python/setup.py) of a
native mesh-analysis extension; the analysis engine itself is not among the
provided sources, so its data model and operations are modelled from the
specification, while the build configuration is embedded directly from
setup.py.
-/

namespace Meshalyzer

/-! ### Vectors -/

/-- Modelled from the spec: 3D points with exact coordinates standing in for
the engine's fixed-width floating-point coordinates ("all computations use a
fixed floating-point width throughout"). -/
abbrev Vec3 : Type := ℚ × ℚ × ℚ

/-- Modelled from the spec: real-valued 3D vectors, used to state exact
Euclidean distances. -/
abbrev RVec3 : Type := ℝ × ℝ × ℝ

/-- Modelled from the spec: Euclidean dot product of two vectors. -/
def dot3 (u v : Vec3) : ℚ := u.1 * v.1 + u.2.1 * v.2.1 + u.2.2 * v.2.2

/-- Modelled from the spec: cross product of two vectors. -/
def cross3 (u v : Vec3) : Vec3 :=
  (u.2.1 * v.2.2 - u.2.2 * v.2.1,
   u.2.2 * v.1 - u.1 * v.2.2,
   u.1 * v.2.1 - u.2.1 * v.1)

/-- Modelled from the spec: scalar triple product, the determinant of the
matrix with rows `a`, `b`, `c`. -/
def det3 (a b c : Vec3) : ℚ := dot3 a (cross3 b c)

/-- Coordinatewise embedding of exact points into real vectors. -/
def toR (v : Vec3) : RVec3 := ((v.1 : ℝ), (v.2.1 : ℝ), (v.2.2 : ℝ))

/-- Real dot product. -/
def dotR (u v : RVec3) : ℝ := u.1 * v.1 + u.2.1 * v.2.1 + u.2.2 * v.2.2

/-- Euclidean norm of a real vector. -/
noncomputable def normR (v : RVec3) : ℝ := Real.sqrt (dotR v v)

/-! ### Mesh data structure -/

/-- Modelled from the spec: a triangular face, a triple of 0-based vertex
indices. -/
abbrev Face : Type := ℕ × ℕ × ℕ

/-- Modelled from the spec: the Mesh data structure, an immutable aggregate
of an ordered vertex sequence and an ordered face sequence. -/
structure Mesh where
  vertices : List Vec3
  faces : List Face
  deriving DecidableEq

/-- Modelled from the spec: position of vertex `i` of a mesh (vertex lookup
by 0-based index). -/
def Mesh.pos (m : Mesh) (i : ℕ) : Vec3 := m.vertices.getD i (0, 0, 0)

/-- Modelled from the spec: a face is in range for a mesh with `n` vertices
when each of its three vertex indices is below `n`. -/
def faceOkFor (n : ℕ) (f : Face) : Prop := f.1 < n ∧ f.2.1 < n ∧ f.2.2 < n

instance (n : ℕ) (f : Face) : Decidable (faceOkFor n f) :=
  inferInstanceAs (Decidable (_ ∧ _ ∧ _))

/-- Modelled from the spec: vertex index `i` is incident to face `f` when it
is one of the face's three vertex indices. -/
def incidentTo (i : ℕ) (f : Face) : Prop := i = f.1 ∨ i = f.2.1 ∨ i = f.2.2

instance (i : ℕ) (f : Face) : Decidable (incidentTo i f) :=
  inferInstanceAs (Decidable (_ ∨ _ ∨ _))

/-- Modelled from the spec: the fatal error kinds of the engine's error
taxonomy (`DegenerateGeometry` is a non-fatal warning and `NotApplicable` a
sentinel, so they are represented separately). -/
inductive ErrKind where
  | shapeMismatch
  | typeMismatch
  | invalidTopology
  | emptyInput
  deriving DecidableEq

/-- Modelled from the spec: `load_mesh` constructs a Mesh from a vertex array
and a face index array and fails with `InvalidTopology` if any face
references an out-of-range vertex index; the failure is fatal, no Mesh is
constructed. -/
def load_mesh (vs : List Vec3) (fs : List Face) : Except ErrKind Mesh :=
  if ∀ f ∈ fs, faceOkFor vs.length f then .ok ⟨vs, fs⟩
  else .error .invalidTopology

/-! ### Build configuration, embedded from src/python/setup.py -/

/-- A rust extension module declaration: the fully qualified target module
name, the path of the Cargo manifest it is built from, and whether debug
mode is enabled. -/
structure RustExtensionDecl where
  target : String
  manifest : String
  debug : Bool
  deriving DecidableEq

/-- The arguments of a setuptools `setup` call that the claims are about. -/
structure SetupConfig where
  name : String
  version : String
  rust_extensions : List RustExtensionDecl
  install_requires : List String
  zip_safe : Bool
  deriving DecidableEq

/-- The `setup(...)` call of src/python/setup.py. -/
def meshalyzerSetup : SetupConfig :=
  ⟨"meshalyzer", "0.1.0",
   [⟨"meshalyzer.meshalyzer", "../Cargo.toml", false⟩],
   ["numpy", "open3d", "matplotlib"],
   false⟩

/-! ### Claims about construction and build configuration -/

/-- C10: the build configuration registers exactly one native extension
module, fully qualified as "meshalyzer.meshalyzer" and built from
../Cargo.toml with debug disabled, and declares numpy, open3d and matplotlib
as the package's required install dependencies. -/
theorem setup_config_spec :
    meshalyzerSetup.rust_extensions =
      [⟨"meshalyzer.meshalyzer", "../Cargo.toml", false⟩] ∧
    meshalyzerSetup.install_requires = ["numpy", "open3d", "matplotlib"] :=
  ⟨rfl, rfl⟩

/-- C7: for every vertex array and face index array in which some face
references an out-of-range vertex index, `load_mesh` fails with the
`InvalidTopology` error kind, and no Mesh value is constructed. -/
theorem load_mesh_invalidTopology (vs : List Vec3) (fs : List Face)
    (h : ∃ f ∈ fs, ¬ faceOkFor vs.length f) :
    load_mesh vs fs = .error .invalidTopology ∧
    ∀ m : Mesh, load_mesh vs fs ≠ .ok m := by
  have hnot : ¬ ∀ f ∈ fs, faceOkFor vs.length f := by
    obtain ⟨f, hf, hbad⟩ := h
    exact fun hall => hbad (hall f hf)
  refine ⟨?_, ?_⟩
  · simp only [load_mesh, if_neg hnot]
  · intro m
    simp only [load_mesh, if_neg hnot]
    exact fun hc => Except.noConfusion hc

/-- Witness for C7: a one-vertex mesh whose single face references the
out-of-range vertex index 1. -/
theorem load_mesh_invalidTopology_witness :
    (∃ f ∈ [((0, 1, 0) : Face)], ¬ faceOkFor [((0, 0, 0) : Vec3)].length f) ∧
    load_mesh [((0, 0, 0) : Vec3)] [((0, 1, 0) : Face)] =
      .error .invalidTopology :=
  ⟨by decide, (load_mesh_invalidTopology _ _ (by decide)).1⟩

/-! ### Geometric metrics engine -/

/-- Modelled from the spec: squared magnitude of the cross product of two
edge vectors of a face; the face's area is half the square root of this
quantity. -/
def crossSq (m : Mesh) (f : Face) : ℚ :=
  dot3 (cross3 (m.pos f.2.1 - m.pos f.1) (m.pos f.2.2 - m.pos f.1))
       (cross3 (m.pos f.2.1 - m.pos f.1) (m.pos f.2.2 - m.pos f.1))

/-- Modelled from the spec: per-face area, half the magnitude of the cross
product of two edge vectors. -/
noncomputable def faceArea (m : Mesh) (f : Face) : ℝ :=
  Real.sqrt ((crossSq m f : ℚ) : ℝ) / 2

/-- Modelled from the spec: a face is degenerate when it has two identical
vertex indices or zero area. -/
def FaceDegenerate (m : Mesh) (f : Face) : Prop :=
  f.1 = f.2.1 ∨ f.2.1 = f.2.2 ∨ f.1 = f.2.2 ∨ crossSq m f = 0

instance (m : Mesh) (f : Face) : Decidable (FaceDegenerate m f) :=
  inferInstanceAs (Decidable (_ ∨ _ ∨ _ ∨ _))

/-- Modelled from the spec: the directed edges contributed by a list of
faces; face `(i, j, k)` contributes `(i,j)`, `(j,k)` and `(k,i)`. -/
def edgesOf : List Face → List (ℕ × ℕ)
  | [] => []
  | f :: fs => (f.1, f.2.1) :: (f.2.1, f.2.2) :: (f.2.2, f.1) :: edgesOf fs

/-- Modelled from the spec: the directed edge list of a mesh. -/
def edgeList (m : Mesh) : List (ℕ × ℕ) := edgesOf m.faces

/-- Modelled from the spec: a mesh is closed and consistently oriented when
its directed edges pair up exactly with their reversals, i.e. every edge is
shared by two faces that traverse it in opposite directions. -/
def IsClosed (m : Mesh) : Prop :=
  (edgeList m).Perm ((edgeList m).map Prod.swap)

instance (m : Mesh) : Decidable (IsClosed m) :=
  inferInstanceAs (Decidable (List.Perm _ _))

/-- Modelled from the spec: sum of signed tetrahedron volumes from each face
to the reference point `r`. -/
def signedVolumeFrom (m : Mesh) (r : Vec3) : ℚ :=
  (m.faces.map (fun f =>
    det3 (m.pos f.1 - r) (m.pos f.2.1 - r) (m.pos f.2.2 - r))).sum / 6

/-- Modelled from the spec: the result slot for the enclosed-volume metric,
either a numeric value or the `NotApplicable` sentinel (a sentinel, not an
error). -/
inductive VolumeResult where
  | value (v : ℚ)
  | notApplicable
  deriving DecidableEq

/-- Modelled from the spec: non-fatal warning kinds surfaced inside a
`MetricReport`. -/
inductive WarnKind where
  | degenerateGeometry
  deriving DecidableEq

/-- Modelled from the spec: the MetricReport value object. -/
structure MetricReport where
  totalArea : ℝ
  volume : VolumeResult
  warnings : List (ℕ × WarnKind)

/-- Modelled from the spec: per-face scan collecting `DegenerateGeometry`
warnings, starting at face index `n`; processing continues past degenerate
faces rather than aborting. -/
def degWarnings (m : Mesh) : ℕ → List Face → List (ℕ × WarnKind)
  | _, [] => []
  | n, f :: fs =>
    if FaceDegenerate m f then (n, .degenerateGeometry) :: degWarnings m (n + 1) fs
    else degWarnings m (n + 1) fs

/-- Modelled from the spec: `compute_metrics` computes the total surface
area, the enclosed volume (the `NotApplicable` sentinel when the mesh is not
closed/manifold), and the collected per-face degeneracy warnings. -/
noncomputable def compute_metrics (m : Mesh) : MetricReport :=
  ⟨m.faces.foldl (fun a f => a + faceArea m f) 0,
   if IsClosed m then .value (signedVolumeFrom m (0, 0, 0)) else .notApplicable,
   degWarnings m 0 m.faces⟩

/-- Folding addition of `g` over a list equals the initial value plus the sum
of the mapped list. -/
theorem foldl_add_map {α : Type} (g : α → ℝ) (l : List α) (a : ℝ) :
    l.foldl (fun acc x => acc + g x) a = a + (l.map g).sum := by
  induction l generalizing a with
  | nil => simp
  | cons x xs ih => simp [ih, add_assoc]

/-- A degenerate face at position `k` of the face list is collected by the
warning scan started at index `n`, as warning index `n + k`. -/
theorem degWarnings_mem (m : Mesh) (l : List Face) (n k : ℕ) (hk : k < l.length)
    (hdeg : FaceDegenerate m (l.get ⟨k, hk⟩)) :
    (n + k, WarnKind.degenerateGeometry) ∈ degWarnings m n l := by
  induction l generalizing n k with
  | nil => exact absurd hk (Nat.not_lt_zero k)
  | cons f fs ih =>
    cases k with
    | zero =>
      have hf : FaceDegenerate m f := hdeg
      simp [degWarnings, if_pos hf]
    | succ k' =>
      have hk' : k' < fs.length := Nat.lt_of_succ_lt_succ hk
      have hdeg' : FaceDegenerate m (fs.get ⟨k', hk'⟩) := hdeg
      have hmem := ih (n + 1) k' hk' hdeg'
      have harr : n + (k' + 1) = n + 1 + k' := by omega
      rw [harr]
      by_cases hf : FaceDegenerate m f
      · simpa [degWarnings, if_pos hf] using Or.inr hmem
      · simpa [degWarnings, if_neg hf] using hmem

/-! ### Claims about the metrics engine -/

/-- C3: for every mesh, `compute_metrics` returns a total surface area equal
to the sum over all faces of the per-face area, where each triangular face's
area is half the magnitude of the cross product of two of its edge
vectors. -/
theorem total_area_eq_sum (m : Mesh) :
    (compute_metrics m).totalArea =
      (m.faces.map (fun f =>
        Real.sqrt ((dot3 (cross3 (m.pos f.2.1 - m.pos f.1) (m.pos f.2.2 - m.pos f.1))
                         (cross3 (m.pos f.2.1 - m.pos f.1) (m.pos f.2.2 - m.pos f.1)) : ℚ) : ℝ)
          / 2)).sum := by
  show m.faces.foldl (fun a f => a + faceArea m f) 0 = _
  rw [foldl_add_map (faceArea m) m.faces, zero_add]
  rfl

/-- C5: for every mesh that is not closed/manifold, `compute_metrics` reports
the `NotApplicable` sentinel for the enclosed volume (no numeric value is
returned for it), and the sentinel is not an error: the rest of the
MetricReport is still produced. -/
theorem volume_notApplicable_of_open (m : Mesh) (h : ¬ IsClosed m) :
    (compute_metrics m).volume = .notApplicable ∧
    (∀ v : ℚ, (compute_metrics m).volume ≠ .value v) ∧
    (compute_metrics m).totalArea = (m.faces.map (faceArea m)).sum := by
  have hv : (compute_metrics m).volume = .notApplicable := by
    show (if IsClosed m then _ else _) = _
    rw [if_neg h]
  refine ⟨hv, ?_, ?_⟩
  · intro v hc
    rw [hv] at hc
    exact VolumeResult.noConfusion hc
  · show m.faces.foldl (fun a f => a + faceArea m f) 0 = _
    rw [foldl_add_map (faceArea m) m.faces, zero_add]

/-- A single triangle in the xy-plane, used as a concrete mesh. -/
def triMesh : Mesh := ⟨[(0, 0, 0), (1, 0, 0), (0, 1, 0)], [(0, 1, 2)]⟩

/-- Witness for C5: a single open triangle is not closed, and its metric
report carries the `NotApplicable` volume sentinel. -/
theorem volume_notApplicable_of_open_witness :
    ¬ IsClosed triMesh ∧ (compute_metrics triMesh).volume = .notApplicable :=
  ⟨by decide, (volume_notApplicable_of_open triMesh (by decide)).1⟩

/-- C8: for every mesh containing a degenerate face (two identical vertex
indices or zero area), `compute_metrics` does not abort: the degenerate face
is flagged in the MetricReport as a `DegenerateGeometry` warning while the
metric computation still covers every face of the mesh. -/
theorem degenerate_face_flagged (m : Mesh) (k : ℕ) (hk : k < m.faces.length)
    (hdeg : FaceDegenerate m (m.faces.get ⟨k, hk⟩)) :
    (k, WarnKind.degenerateGeometry) ∈ (compute_metrics m).warnings ∧
    (compute_metrics m).totalArea = (m.faces.map (faceArea m)).sum := by
  refine ⟨?_, ?_⟩
  · show (k, WarnKind.degenerateGeometry) ∈ degWarnings m 0 m.faces
    simpa using degWarnings_mem m m.faces 0 k hk hdeg
  · show m.faces.foldl (fun a f => a + faceArea m f) 0 = _
    rw [foldl_add_map (faceArea m) m.faces, zero_add]

/-- A two-vertex mesh whose single face repeats vertex index 0, hence is
degenerate. -/
def degMesh : Mesh := ⟨[(0, 0, 0), (1, 0, 0)], [(0, 0, 1)]⟩

/-- Witness for C8: the degenerate face of `degMesh` is flagged at warning
index 0. -/
theorem degenerate_face_flagged_witness :
    0 < degMesh.faces.length ∧
    (0, WarnKind.degenerateGeometry) ∈ (compute_metrics degMesh).warnings :=
  ⟨by decide, (degenerate_face_flagged degMesh 0 (by decide) (by decide)).1⟩

/-! ### Reference-point invariance of the signed-tetrahedron volume -/

/-- The cross product is antisymmetric. -/
theorem cross3_swap (u v : Vec3) : cross3 v u = - cross3 u v := by
  simp only [cross3, Prod.ext_iff, Prod.fst_neg, Prod.snd_neg]
  refine ⟨by ring, by ring, by ring⟩

/-- Splitting the scalar triple product at a shifted reference point. -/
theorem det3_sub_ref (a b c r : Vec3) :
    det3 (a - r) (b - r) (c - r) =
      det3 a b c - dot3 r (cross3 a b + cross3 b c + cross3 c a) := by
  obtain ⟨a1, a2, a3⟩ := a
  obtain ⟨b1, b2, b3⟩ := b
  obtain ⟨c1, c2, c3⟩ := c
  obtain ⟨r1, r2, r3⟩ := r
  simp only [det3, dot3, cross3, Prod.mk_sub_mk, Prod.mk_add_mk]
  ring

/-- Mapped sums split over pointwise subtraction. -/
theorem list_sum_map_sub {α M : Type} [AddCommGroup M] (f g : α → M) (l : List α) :
    (l.map (fun x => f x - g x)).sum = (l.map f).sum - (l.map g).sum := by
  induction l with
  | nil => simp
  | cons x xs ih =>
    simp only [List.map_cons, List.sum_cons, ih]
    abel

/-- Mapped sums split over pointwise negation. -/
theorem list_sum_map_neg {α M : Type} [AddCommGroup M] (g : α → M) (l : List α) :
    (l.map (fun x => - g x)).sum = - (l.map g).sum := by
  induction l with
  | nil => simp
  | cons x xs ih =>
    simp only [List.map_cons, List.sum_cons, ih]
    abel

/-- The dot product distributes over vector addition on the right. -/
theorem dot3_add_right (r u v : Vec3) : dot3 r (u + v) = dot3 r u + dot3 r v := by
  obtain ⟨u1, u2, u3⟩ := u
  obtain ⟨v1, v2, v3⟩ := v
  simp only [dot3, Prod.mk_add_mk]
  ring

/-- The dot product with the zero vector vanishes. -/
theorem dot3_zero_right (r : Vec3) : dot3 r 0 = 0 := by
  simp [dot3]

/-- The dot product distributes over list sums on the right. -/
theorem dot3_list_sum (r : Vec3) (l : List Vec3) :
    dot3 r l.sum = (l.map (dot3 r)).sum := by
  induction l with
  | nil => simp [dot3_zero_right]
  | cons x xs ih => simp [dot3_add_right, ih]

/-- The cross product of the endpoint positions of a directed edge. -/
def edgeCross (m : Mesh) (e : ℕ × ℕ) : Vec3 := cross3 (m.pos e.1) (m.pos e.2)

/-- The per-face sum of the three oriented boundary cross products equals the
sum over the directed edge list. -/
theorem faces_cross_sum_eq_edges (m : Mesh) (l : List Face) :
    (l.map (fun f => cross3 (m.pos f.1) (m.pos f.2.1)
        + cross3 (m.pos f.2.1) (m.pos f.2.2)
        + cross3 (m.pos f.2.2) (m.pos f.1))).sum
      = ((edgesOf l).map (edgeCross m)).sum := by
  induction l with
  | nil => rfl
  | cons f fs ih =>
    simp only [List.map_cons, List.sum_cons, edgesOf, edgeCross, ih]
    abel

/-- On a closed mesh, the directed-edge cross-product sum cancels. -/
theorem edge_cross_sum_zero (m : Mesh) (h : IsClosed m) :
    ((edgeList m).map (edgeCross m)).sum = 0 := by
  have h1 : ((edgeList m).map (edgeCross m)).sum
      = (((edgeList m).map Prod.swap).map (edgeCross m)).sum :=
    (h.map (edgeCross m)).sum_eq
  rw [List.map_map] at h1
  have h2 : ((edgeList m).map (edgeCross m ∘ Prod.swap))
      = (edgeList m).map (fun e => - edgeCross m e) := by
    refine List.map_congr_left ?_
    intro e _
    simp only [Function.comp_apply, edgeCross, Prod.fst_swap, Prod.snd_swap]
    exact cross3_swap (m.pos e.1) (m.pos e.2)
  rw [h2, list_sum_map_neg] at h1
  have hx : ((edgeList m).map (edgeCross m)).sum.1 = 0 := by
    have := congrArg Prod.fst h1
    simp only [Prod.fst_neg] at this
    linarith
  have hy : ((edgeList m).map (edgeCross m)).sum.2.1 = 0 := by
    have := congrArg (fun v : Vec3 => v.2.1) h1
    simp only [Prod.snd_neg, Prod.fst_neg] at this
    linarith
  have hz : ((edgeList m).map (edgeCross m)).sum.2.2 = 0 := by
    have := congrArg (fun v : Vec3 => v.2.2) h1
    simp only [Prod.snd_neg] at this
    linarith
  exact Prod.ext hx (Prod.ext hy hz)

/-- Decomposition of the signed-tetrahedron volume sum: a reference-free part
plus a part linear in the reference point through the boundary edge sum. -/
theorem signedVolumeFrom_eq (m : Mesh) (r : Vec3) :
    signedVolumeFrom m r =
      ((m.faces.map (fun f => det3 (m.pos f.1) (m.pos f.2.1) (m.pos f.2.2))).sum
        - dot3 r ((edgeList m).map (edgeCross m)).sum) / 6 := by
  unfold signedVolumeFrom
  congr 1
  have hcongr : m.faces.map (fun f =>
      det3 (m.pos f.1 - r) (m.pos f.2.1 - r) (m.pos f.2.2 - r))
      = m.faces.map (fun f =>
        det3 (m.pos f.1) (m.pos f.2.1) (m.pos f.2.2)
          - dot3 r (cross3 (m.pos f.1) (m.pos f.2.1)
              + cross3 (m.pos f.2.1) (m.pos f.2.2)
              + cross3 (m.pos f.2.2) (m.pos f.1))) := by
    refine List.map_congr_left ?_
    intro f _
    exact det3_sub_ref (m.pos f.1) (m.pos f.2.1) (m.pos f.2.2) r
  rw [hcongr, list_sum_map_sub]
  congr 1
  rw [edgeList, ← faces_cross_sum_eq_edges m m.faces, dot3_list_sum, List.map_map]
  rfl

/-- C4: for every closed orientable (manifold) mesh, the enclosed volume
computed as the sum of signed tetrahedron volumes from each face to a
reference point is the same for every choice of reference point, and is the
value reported by `compute_metrics`. -/
theorem volume_ref_invariant (m : Mesh) (r r' : Vec3) (h : IsClosed m) :
    signedVolumeFrom m r = signedVolumeFrom m r' ∧
    (compute_metrics m).volume = .value (signedVolumeFrom m r) := by
  have hz := edge_cross_sum_zero m h
  constructor
  · rw [signedVolumeFrom_eq m r, signedVolumeFrom_eq m r', hz,
      dot3_zero_right, dot3_zero_right]
  · show (if IsClosed m then _ else _) = _
    rw [if_pos h]
    congr 1
    rw [signedVolumeFrom_eq m (0, 0, 0), signedVolumeFrom_eq m r, hz,
      dot3_zero_right, dot3_zero_right]

/-- A closed, outward-oriented tetrahedron. -/
def tetraMesh : Mesh :=
  ⟨[(0, 0, 0), (1, 0, 0), (0, 1, 0), (0, 0, 1)],
   [(0, 2, 1), (0, 1, 3), (0, 3, 2), (1, 2, 3)]⟩

/-- Witness for C4: the tetrahedron is closed and its signed-volume sum is
identical for two different reference points. -/
theorem volume_ref_invariant_witness :
    IsClosed tetraMesh ∧
    signedVolumeFrom tetraMesh (1, 2, 3) = signedVolumeFrom tetraMesh (5, 7, 9) :=
  ⟨by decide, (volume_ref_invariant tetraMesh (1, 2, 3) (5, 7, 9) (by decide)).1⟩

/-! ### Invariance of the surface area under relabeling -/

/-- Modelled from the spec: a mesh is well-formed when every face references
only in-range vertex indices ("every face index refers to a valid
vertex"). -/
def WellFormed (m : Mesh) : Prop := ∀ f ∈ m.faces, faceOkFor m.vertices.length f

instance (m : Mesh) : Decidable (WellFormed m) :=
  inferInstanceAs (Decidable (∀ f ∈ m.faces, faceOkFor m.vertices.length f))

/-- Renaming of the vertex indices of a face along `σ`. -/
def relabel (σ : ℕ → ℕ) (f : Face) : Face := (σ f.1, σ f.2.1, σ f.2.2)

/-- The area of a face only depends on the positions of its three corners. -/
theorem faceArea_relabel (A B : Mesh) (σ : ℕ → ℕ) (f : Face)
    (h1 : B.pos (σ f.1) = A.pos f.1)
    (h2 : B.pos (σ f.2.1) = A.pos f.2.1)
    (h3 : B.pos (σ f.2.2) = A.pos f.2.2) :
    faceArea B (relabel σ f) = faceArea A f := by
  unfold faceArea crossSq relabel
  rw [show (σ f.1, σ f.2.1, σ f.2.2).1 = σ f.1 from rfl]
  simp only [h1, h2, h3]

/-- The total surface area as a mapped sum. -/
theorem totalArea_eq_map_sum (m : Mesh) :
    (compute_metrics m).totalArea = (m.faces.map (faceArea m)).sum := by
  show m.faces.foldl (fun a f => a + faceArea m f) 0 = _
  rw [foldl_add_map (faceArea m) m.faces, zero_add]

/-- C6: for every mesh, the total surface area reported by
`compute_metrics` is unchanged under any permutation of the face list and
any relabeling of vertex indices that preserves the geometry (the same
triangles in space). -/
theorem area_invariant (A B : Mesh) (σ : ℕ → ℕ)
    (hwf : WellFormed A)
    (hσ : ∀ i, i < A.vertices.length → B.pos (σ i) = A.pos i)
    (hperm : B.faces.Perm (A.faces.map (relabel σ))) :
    (compute_metrics B).totalArea = (compute_metrics A).totalArea := by
  rw [totalArea_eq_map_sum, totalArea_eq_map_sum]
  have hsum : (B.faces.map (faceArea B)).sum
      = ((A.faces.map (relabel σ)).map (faceArea B)).sum :=
    (hperm.map (faceArea B)).sum_eq
  rw [hsum, List.map_map]
  refine congrArg List.sum (List.map_congr_left ?_)
  intro f hf
  obtain ⟨hf1, hf2, hf3⟩ := hwf f hf
  exact faceArea_relabel A B σ f (hσ f.1 hf1) (hσ f.2.1 hf2) (hσ f.2.2 hf3)

/-- The triangle of `triMesh` with its vertex list cyclically shifted and
its face indices renamed accordingly. -/
def permTriMesh : Mesh := ⟨[(0, 1, 0), (0, 0, 0), (1, 0, 0)], [(1, 2, 0)]⟩

/-- Witness for C6: shifting the vertex list of `triMesh` and renaming the
face indices along `i ↦ (i+1) % 3` leaves the total area unchanged. -/
theorem area_invariant_witness :
    WellFormed triMesh ∧
    (∀ i, i < triMesh.vertices.length →
      permTriMesh.pos ((i + 1) % 3) = triMesh.pos i) ∧
    (compute_metrics permTriMesh).totalArea = (compute_metrics triMesh).totalArea :=
  ⟨by decide, by decide,
    area_invariant triMesh permTriMesh (fun i => (i + 1) % 3)
      (by decide) (by decide) (by decide)⟩

/-! ### Point-to-triangle distance -/

/-- Modelled from the spec: the point of the triangle with corners `a`, `b`,
`c` at parameters `u`, `v`. -/
def triPt (a b c : RVec3) (u v : ℝ) : RVec3 := a + u • (b - a) + v • (c - a)

/-- Modelled from the spec: membership of a point in the solid triangle with
corners `a`, `b`, `c`. -/
def InTriangle (a b c q : RVec3) : Prop :=
  ∃ u v : ℝ, 0 ≤ u ∧ 0 ≤ v ∧ u + v ≤ 1 ∧ q = triPt a b c u v

/-- Modelled from the spec: the set of Euclidean distances from `p` to the
points of the triangle. -/
def triDistSet (p a b c : RVec3) : Set ℝ :=
  {d | ∃ q, InTriangle a b c q ∧ d = normR (p - q)}

/-- Modelled from the spec: the exact minimum distance from a point to a
triangular primitive. -/
noncomputable def triDist (p a b c : RVec3) : ℝ := sInf (triDistSet p a b c)

/-- The parameter origin of a triangle is its first corner. -/
theorem triPt_zero (a b c : RVec3) : triPt a b c 0 0 = a := by
  simp [triPt]

/-- The first corner belongs to its triangle. -/
theorem corner_a (a b c : RVec3) : InTriangle a b c a :=
  ⟨0, 0, le_refl 0, le_refl 0, by norm_num, (triPt_zero a b c).symm⟩

/-- The second corner belongs to its triangle. -/
theorem corner_b (a b c : RVec3) : InTriangle a b c b := by
  refine ⟨1, 0, by norm_num, le_refl 0, by norm_num, ?_⟩
  simp [triPt]

/-- The third corner belongs to its triangle. -/
theorem corner_c (a b c : RVec3) : InTriangle a b c c := by
  refine ⟨0, 1, le_refl 0, by norm_num, by norm_num, ?_⟩
  simp [triPt]

/-- Norms are nonnegative. -/
theorem normR_nonneg (v : RVec3) : 0 ≤ normR v := Real.sqrt_nonneg _

/-- The norm of the null displacement vanishes. -/
theorem normR_sub_self (p : RVec3) : normR (p - p) = 0 := by
  simp [normR, dotR]

/-- Distance sets are nonempty. -/
theorem triDistSet_nonempty (p a b c : RVec3) : (triDistSet p a b c).Nonempty :=
  ⟨normR (p - a), a, corner_a a b c, rfl⟩

/-- Distance sets are bounded below by 0. -/
theorem triDist_bddBelow (p a b c : RVec3) : BddBelow (triDistSet p a b c) := by
  refine ⟨0, ?_⟩
  rintro d ⟨q, _, rfl⟩
  exact normR_nonneg _

/-- The distance to a triangle is nonnegative. -/
theorem triDist_nonneg (p a b c : RVec3) : 0 ≤ triDist p a b c := by
  refine Real.sInf_nonneg ?_
  rintro d ⟨q, _, rfl⟩
  exact normR_nonneg _

/-- The distance to a triangle is at most the distance to any of its
points. -/
theorem triDist_le (p a b c q : RVec3) (hq : InTriangle a b c q) :
    triDist p a b c ≤ normR (p - q) :=
  csInf_le (triDist_bddBelow p a b c) ⟨q, hq, rfl⟩

/-- A point of the triangle is at distance 0 from it. -/
theorem triDist_eq_zero_of_mem (p a b c : RVec3) (hp : InTriangle a b c p) :
    triDist p a b c = 0 := by
  refine le_antisymm ?_ (triDist_nonneg p a b c)
  have h := triDist_le p a b c p hp
  rwa [normR_sub_self] at h

/-- The standard right triangle in the xy-plane, parametrised. -/
theorem triPt_std (u v : ℝ) :
    triPt (0, 0, 0) (1, 0, 0) (0, 1, 0) u v = (u, v, 0) := by
  simp [triPt, Prod.ext_iff]

/-- The centroid of a triangle lies inside it. -/
theorem centroid_inTriangle (a b c : Vec3) :
    InTriangle (toR a) (toR b) (toR c) (toR ((1/3 : ℚ) • (a + b + c))) := by
  refine ⟨1/3, 1/3, by norm_num, by norm_num, by norm_num, ?_⟩
  obtain ⟨a1, a2, a3⟩ := a
  obtain ⟨b1, b2, b3⟩ := b
  obtain ⟨c1, c2, c3⟩ := c
  simp only [toR, triPt, Prod.mk_add_mk, Prod.smul_mk, Prod.mk_sub_mk,
    smul_eq_mul, Prod.ext_iff]
  push_cast
  refine ⟨by ring, by ring, by ring⟩

/-! ### Spatial index and the nearest-primitive query -/

/-- Modelled from the spec: a SpatialIndex borrows the single mesh it
indexes. -/
structure SpatialIndex where
  mesh : Mesh
  deriving DecidableEq

/-- Modelled from the spec: `build_index` constructs a spatial index over a
mesh, failing with `EmptyInput` for an empty mesh. -/
def build_index (m : Mesh) : Except ErrKind SpatialIndex :=
  if m.vertices = [] ∨ m.faces = [] then .error .emptyInput else .ok ⟨m⟩

/-- Modelled from the spec: minimum distance from a point to the triangle of
a given face of a mesh. -/
noncomputable def faceDist (m : Mesh) (p : RVec3) (f : Face) : ℝ :=
  triDist p (toR (m.pos f.1)) (toR (m.pos f.2.1)) (toR (m.pos f.2.2))

/-- Faces paired with their 0-based indices, starting at `n`. -/
def withIdx : ℕ → List Face → List (ℕ × Face)
  | _, [] => []
  | n, f :: fs => (n, f) :: withIdx (n + 1) fs

/-- Fold selecting the entry of smallest distance; ties keep the earlier
entry. -/
noncomputable def nearFold : List (ℕ × ℝ) → (ℕ × ℝ) → (ℕ × ℝ)
  | [], b => b
  | y :: ys, b => nearFold ys (if y.2 < b.2 then y else b)

/-- Selection of the smallest-distance entry of a list, if any. -/
noncomputable def nearestList : List (ℕ × ℝ) → Option (ℕ × ℝ)
  | [] => none
  | x :: xs => some (nearFold xs x)

/-- Modelled from the spec: the nearest-primitive-to-point query; returns
the closest face together with the exact distance, or no result for an
empty mesh. -/
noncomputable def nearestPrimitive (ix : SpatialIndex) (p : RVec3) :
    Option (ℕ × ℝ) :=
  nearestList ((withIdx 0 ix.mesh.faces).map
    (fun e => (e.1, faceDist ix.mesh p e.2)))

/-- Modelled from the spec: the minimum distance reported by the
nearest-primitive query (0 when there is no result), used by the comparison
engine for its minimum-distance queries. -/
noncomputable def queryDist (ix : SpatialIndex) (p : RVec3) : ℝ :=
  match nearestPrimitive ix p with
  | some r => r.2
  | none => 0

/-- The fold result is the initial entry or one of those of the list. -/
theorem nearFold_mem (ys : List (ℕ × ℝ)) (b : ℕ × ℝ) :
    nearFold ys b = b ∨ nearFold ys b ∈ ys := by
  induction ys generalizing b with
  | nil => exact Or.inl rfl
  | cons y ys ih =>
    have hgoal : nearFold (y :: ys) b = nearFold ys (if y.2 < b.2 then y else b) := rfl
    rcases ih (if y.2 < b.2 then y else b) with h | h
    · by_cases hc : y.2 < b.2
      · right
        rw [hgoal, h, if_pos hc]
        exact List.mem_cons_self y ys
      · left
        rw [hgoal, h, if_neg hc]
    · right
      rw [hgoal]
      exact List.mem_cons_of_mem y h

/-- The fold result's distance is minimal among the initial entry and the
list entries. -/
theorem nearFold_le (ys : List (ℕ × ℝ)) (b : ℕ × ℝ) :
    (nearFold ys b).2 ≤ b.2 ∧ ∀ y ∈ ys, (nearFold ys b).2 ≤ y.2 := by
  induction ys generalizing b with
  | nil => exact ⟨le_refl _, by intro y hy; cases hy⟩
  | cons y ys ih =>
    have hstep : (if y.2 < b.2 then y else b).2 ≤ b.2 ∧
        (if y.2 < b.2 then y else b).2 ≤ y.2 := by
      by_cases hc : y.2 < b.2
      · rw [if_pos hc]
        exact ⟨le_of_lt hc, le_refl _⟩
      · rw [if_neg hc]
        exact ⟨le_refl _, le_of_not_lt hc⟩
    obtain ⟨ih1, ih2⟩ := ih (if y.2 < b.2 then y else b)
    refine ⟨le_trans ih1 hstep.1, ?_⟩
    intro z hz
    rcases List.mem_cons.mp hz with rfl | hz'
    · exact le_trans ih1 hstep.2
    · exact ih2 z hz'

/-- The distance-selection over a nonempty list returns a member of minimal
distance. -/
theorem nearestList_spec (l : List (ℕ × ℝ)) (hl : l ≠ []) :
    ∃ r, nearestList l = some r ∧ r ∈ l ∧ ∀ y ∈ l, r.2 ≤ y.2 := by
  cases l with
  | nil => exact absurd rfl hl
  | cons x xs =>
    refine ⟨nearFold xs x, rfl, ?_, ?_⟩
    · rcases nearFold_mem xs x with h | h
      · rw [h]
        exact List.mem_cons_self x xs
      · exact List.mem_cons_of_mem x h
    · intro y hy
      obtain ⟨h1, h2⟩ := nearFold_le xs x
      rcases List.mem_cons.mp hy with rfl | hy'
      · exact h1
      · exact h2 y hy'

/-- Entries of the indexing scan are exactly the list entries at shifted
positions. -/
theorem withIdx_mem_elim (l : List Face) (n : ℕ) (x : ℕ × Face)
    (hx : x ∈ withIdx n l) :
    ∃ (k : ℕ) (hk : k < l.length), x = (n + k, l.get ⟨k, hk⟩) := by
  induction l generalizing n with
  | nil => cases hx
  | cons f fs ih =>
    rcases List.mem_cons.mp hx with rfl | hx'
    · exact ⟨0, Nat.succ_pos _, by simp⟩
    · obtain ⟨k, hk, hxe⟩ := ih (n + 1) hx'
      refine ⟨k + 1, Nat.succ_lt_succ hk, ?_⟩
      rw [hxe]
      exact Prod.ext (by omega) rfl

/-- Every position of the face list appears in the indexing scan. -/
theorem withIdx_mem_intro (l : List Face) (n k : ℕ) (hk : k < l.length) :
    (n + k, l.get ⟨k, hk⟩) ∈ withIdx n l := by
  induction l generalizing n k with
  | nil => exact absurd hk (Nat.not_lt_zero k)
  | cons f fs ih =>
    cases k with
    | zero => simp [withIdx]
    | succ k' =>
      have hk' : k' < fs.length := Nat.lt_of_succ_lt_succ hk
      have h2 := ih (n + 1) k' hk'
      refine List.mem_cons_of_mem _ ?_
      have harr : (n + (k' + 1), (f :: fs).get ⟨k' + 1, hk⟩)
          = (n + 1 + k', fs.get ⟨k', hk'⟩) := Prod.ext (by omega) rfl
      rw [harr]
      exact h2

/-- The nearest-primitive query on a nonempty mesh returns a face index in
range whose distance is the minimum face distance. -/
theorem nearestPrimitive_spec (m : Mesh) (p : RVec3) (hne : m.faces ≠ []) :
    ∃ j d, nearestPrimitive ⟨m⟩ p = some (j, d) ∧
      (∃ hj : j < m.faces.length, d = faceDist m p (m.faces.get ⟨j, hj⟩)) ∧
      ∀ f ∈ m.faces, d ≤ faceDist m p f := by
  have hlist : (withIdx 0 m.faces).map (fun e => (e.1, faceDist m p e.2)) ≠ [] := by
    cases hm : m.faces with
    | nil => exact absurd hm hne
    | cons f fs =>
      simp [withIdx]
  obtain ⟨r, hr, hrm, hmin⟩ := nearestList_spec _ hlist
  obtain ⟨e, he, hre⟩ := List.mem_map.mp hrm
  obtain ⟨k, hk, hek⟩ := withIdx_mem_elim m.faces 0 e he
  rw [Nat.zero_add] at hek
  subst hek
  subst hre
  refine ⟨k, faceDist m p (m.faces.get ⟨k, hk⟩), ?_, ⟨hk, rfl⟩, ?_⟩
  · exact hr
  · intro f hf
    obtain ⟨⟨kk, hkk⟩, hget⟩ := List.mem_iff_get.mp hf
    have hmem := withIdx_mem_intro m.faces 0 kk hkk
    have hy : ((0 + kk, faceDist m p (m.faces.get ⟨kk, hkk⟩)) : ℕ × ℝ)
        ∈ (withIdx 0 m.faces).map (fun e => (e.1, faceDist m p e.2)) :=
      List.mem_map.mpr ⟨_, hmem, rfl⟩
    have hthis : ((k, faceDist m p (m.faces.get ⟨k, hk⟩)) : ℕ × ℝ).2
        ≤ faceDist m p (m.faces.get ⟨kk, hkk⟩) := hmin _ hy
    rw [hget] at hthis
    exact hthis

/-- On a nonempty mesh, the query distance is attained at some face and
bounds every face distance from below. -/
theorem queryDist_spec (m : Mesh) (p : RVec3) (hne : m.faces ≠ []) :
    (∃ f ∈ m.faces, queryDist ⟨m⟩ p = faceDist m p f) ∧
    ∀ f ∈ m.faces, queryDist ⟨m⟩ p ≤ faceDist m p f := by
  obtain ⟨j, d, hsome, ⟨hj, hd⟩, hub⟩ := nearestPrimitive_spec m p hne
  have hq : queryDist ⟨m⟩ p = d := by
    simp [queryDist, hsome]
  constructor
  · exact ⟨m.faces.get ⟨j, hj⟩, List.get_mem m.faces j hj, by rw [hq, hd]⟩
  · intro f hf
    rw [hq]
    exact hub f hf

/-- The query distance on a nonempty mesh is nonnegative. -/
theorem queryDist_nonneg (m : Mesh) (p : RVec3) (hne : m.faces ≠ []) :
    0 ≤ queryDist ⟨m⟩ p := by
  obtain ⟨⟨f, _, hf⟩, _⟩ := queryDist_spec m p hne
  rw [hf]
  exact triDist_nonneg _ _ _ _

/-! ### Comparison engine -/

/-- Modelled from the spec: directed and symmetric Hausdorff distances of a
comparison. -/
structure ComparisonResult where
  dAB : ℝ
  dBA : ℝ
  symmetric : ℝ

/-- Modelled from the spec: centroid of a face, the uniform interior sample
point contributed by that face under dense sampling. -/
def Mesh.centroid (m : Mesh) (f : Face) : Vec3 :=
  (1/3 : ℚ) • (m.pos f.1 + m.pos f.2.1 + m.pos f.2.2)

/-- Modelled from the spec: the sample points taken on a mesh: its vertices
are always included, and with nonzero sampling density every face
contributes an interior sample. -/
def samplePoints (m : Mesh) (density : ℕ) : List Vec3 :=
  m.vertices ++ (if density = 0 then [] else m.faces.map m.centroid)

/-- Maximum of a list of real numbers (0 for the empty list). -/
noncomputable def listMax : List ℝ → ℝ
  | [] => 0
  | x :: xs => xs.foldl max x

/-- Modelled from the spec: directed distance d(A→B), the maximum over the
sample points of A of the minimum distance to B's primitives, queried
through B's spatial index. -/
noncomputable def directedDist (A : Mesh) (ixB : SpatialIndex) (density : ℕ) : ℝ :=
  listMax ((samplePoints A density).map (fun p => queryDist ixB (toR p)))

/-- Modelled from the spec: `compare` fails with `EmptyInput` when either
mesh is empty, and otherwise returns both directed distances together with
the symmetric Hausdorff distance, the maximum of the two, querying each
direction through the other mesh's spatial index. -/
noncomputable def compare (A B : Mesh) (ixA ixB : SpatialIndex) (density : ℕ) :
    Except ErrKind ComparisonResult :=
  if A.vertices = [] ∨ A.faces = [] ∨ B.vertices = [] ∨ B.faces = [] then
    .error .emptyInput
  else
    .ok ⟨directedDist A ixB density, directedDist B ixA density,
      max (directedDist A ixB density) (directedDist B ixA density)⟩

/-- The fold of `max` dominates its initial value. -/
theorem foldl_max_ge_init (xs : List ℝ) (a : ℝ) : a ≤ xs.foldl max a := by
  induction xs generalizing a with
  | nil => exact le_refl a
  | cons x xs ih => exact le_trans (le_max_left a x) (ih (max a x))

/-- The fold of `max` dominates every list element. -/
theorem foldl_max_ge_mem (xs : List ℝ) (a : ℝ) :
    ∀ x ∈ xs, x ≤ xs.foldl max a := by
  induction xs generalizing a with
  | nil => intro x hx; cases hx
  | cons y ys ih =>
    intro x hx
    rcases List.mem_cons.mp hx with rfl | hx'
    · exact le_trans (le_max_right a x) (foldl_max_ge_init ys (max a x))
    · exact ih (max a y) x hx'

/-- The fold of `max` is its initial value or a list element. -/
theorem foldl_max_mem (xs : List ℝ) (a : ℝ) :
    xs.foldl max a = a ∨ xs.foldl max a ∈ xs := by
  induction xs generalizing a with
  | nil => exact Or.inl rfl
  | cons y ys ih =>
    have hgoal : (y :: ys).foldl max a = ys.foldl max (max a y) := rfl
    rcases ih (max a y) with h | h
    · rcases max_choice a y with hm | hm
      · left
        rw [hgoal, h, hm]
      · right
        rw [hgoal, h, hm]
        exact List.mem_cons_self y ys
    · right
      rw [hgoal]
      exact List.mem_cons_of_mem y h

/-- Every member of a list is at most its `listMax`. -/
theorem le_listMax (l : List ℝ) (x : ℝ) (hx : x ∈ l) : x ≤ listMax l := by
  cases l with
  | nil => cases hx
  | cons y ys =>
    rcases List.mem_cons.mp hx with rfl | hx'
    · exact foldl_max_ge_init ys x
    · exact foldl_max_ge_mem ys y x hx'

/-- The `listMax` of a nonempty list is one of its members. -/
theorem listMax_mem (l : List ℝ) (hl : l ≠ []) : listMax l ∈ l := by
  cases l with
  | nil => exact absurd rfl hl
  | cons y ys =>
    rcases foldl_max_mem ys y with h | h
    · rw [show listMax (y :: ys) = ys.foldl max y from rfl, h]
      exact List.mem_cons_self y ys
    · exact List.mem_cons_of_mem y h

/-- The `listMax` of a nonempty list of zeros is 0. -/
theorem listMax_eq_zero (l : List ℝ) (hl : l ≠ []) (h : ∀ x ∈ l, x = 0) :
    listMax l = 0 :=
  h _ (listMax_mem l hl)

/-- The distance from the position of a vertex to any face incident to it
vanishes. -/
theorem faceDist_zero_of_incident (m : Mesh) (i : ℕ) (f : Face)
    (hinc : incidentTo i f) : faceDist m (toR (m.pos i)) f = 0 := by
  rcases hinc with h | h | h
  · rw [h]
    exact triDist_eq_zero_of_mem _ _ _ _ (corner_a _ _ _)
  · rw [h]
    exact triDist_eq_zero_of_mem _ _ _ _ (corner_b _ _ _)
  · rw [h]
    exact triDist_eq_zero_of_mem _ _ _ _ (corner_c _ _ _)

/-- On a mesh each of whose vertices lies on one of its own faces, the
directed distance of the mesh against itself vanishes. -/
theorem directedDist_self_zero (M : Mesh) (d : ℕ)
    (hv : M.vertices ≠ []) (hf : M.faces ≠ [])
    (hused : ∀ i, i < M.vertices.length → ∃ f ∈ M.faces, incidentTo i f) :
    directedDist M ⟨M⟩ d = 0 := by
  refine listMax_eq_zero _ ?_ ?_
  · intro hc
    apply hv
    have := List.map_eq_nil_iff.mp hc
    exact (List.append_eq_nil.mp this).1
  · intro x hx
    obtain ⟨p, hp, rfl⟩ := List.mem_map.mp hx
    obtain ⟨⟨g, hg, hattain⟩, hbound⟩ := queryDist_spec M (toR p) hf
    have hnn : 0 ≤ queryDist ⟨M⟩ (toR p) := queryDist_nonneg M (toR p) hf
    rcases List.mem_append.mp hp with hpv | hpc
    · obtain ⟨n, hn, hget⟩ := List.mem_iff_getElem.mp hpv
      obtain ⟨f, hfm, hincf⟩ := hused n hn
      have hp0 : M.pos n = p := by
        rw [Mesh.pos, List.getD_eq_getElem _ _ hn, hget]
      have h0 : faceDist M (toR p) f = 0 := by
        rw [← hp0]
        exact faceDist_zero_of_incident M n f hincf
      have hle := hbound f hfm
      rw [h0] at hle
      exact le_antisymm hle hnn
    · by_cases hd : d = 0
      · rw [if_pos hd] at hpc
        cases hpc
      · rw [if_neg hd] at hpc
        obtain ⟨f, hfm, rfl⟩ := List.mem_map.mp hpc
        have h0 : faceDist M (toR (M.centroid f)) f = 0 :=
          triDist_eq_zero_of_mem _ _ _ _
            (centroid_inTriangle (M.pos f.1) (M.pos f.2.1) (M.pos f.2.2))
        have hle := hbound f hfm
        rw [h0] at hle
        exact le_antisymm hle hnn

/-- C1 (amended): for every non-empty mesh M each of whose vertices is
referenced by at least one face, `compare(M, M)` with M's own spatial index
on both sides yields directed and symmetric Hausdorff distances of exactly
zero. -/
theorem compare_self_zero (M : Mesh) (d : ℕ)
    (hv : M.vertices ≠ []) (hf : M.faces ≠ [])
    (hused : ∀ i, i < M.vertices.length → ∃ f ∈ M.faces, incidentTo i f) :
    compare M M ⟨M⟩ ⟨M⟩ d = .ok ⟨0, 0, 0⟩ := by
  have hz := directedDist_self_zero M d hv hf hused
  have hguard : ¬ (M.vertices = [] ∨ M.faces = [] ∨
      M.vertices = [] ∨ M.faces = []) := by
    simp [hv, hf]
  simp only [compare, if_neg hguard, hz, max_self]

/-- Witness for C1 (amended) on a single well-used triangle. -/
theorem compare_self_zero_witness :
    triMesh.vertices ≠ [] ∧ triMesh.faces ≠ [] ∧
    (∀ i, i < triMesh.vertices.length → ∃ f ∈ triMesh.faces, incidentTo i f) ∧
    compare triMesh triMesh ⟨triMesh⟩ ⟨triMesh⟩ 0 = .ok ⟨0, 0, 0⟩ :=
  ⟨by decide, by decide, by decide,
    compare_self_zero triMesh 0 (by decide) (by decide) (by decide)⟩

/-- C2: for every pair of non-empty meshes A and B, the directed distance
d(A→B) of `compare` is the maximum, over the sample points on A (which
always include every vertex of A), of the minimum distance from that point
to any primitive of B queried through B's spatial index, and the symmetric
Hausdorff distance returned is the maximum of d(A→B) and d(B→A). -/
theorem compare_hausdorff_spec (A B : Mesh) (ixA ixB : SpatialIndex) (d : ℕ)
    (r : ComparisonResult) (hB : ixB = ⟨B⟩)
    (h : compare A B ixA ixB d = .ok r) :
    r.symmetric = max r.dAB r.dBA ∧
    (∀ v ∈ A.vertices, v ∈ samplePoints A d) ∧
    (∀ p ∈ samplePoints A d, queryDist ixB (toR p) ≤ r.dAB) ∧
    (∃ p ∈ samplePoints A d, r.dAB = queryDist ixB (toR p)) ∧
    (∀ p ∈ samplePoints A d,
      (∃ f ∈ B.faces, queryDist ixB (toR p) = faceDist B (toR p) f) ∧
      ∀ f ∈ B.faces, queryDist ixB (toR p) ≤ faceDist B (toR p) f) := by
  by_cases hg : A.vertices = [] ∨ A.faces = [] ∨ B.vertices = [] ∨ B.faces = []
  · rw [compare, if_pos hg] at h
    exact Except.noConfusion h
  · rw [compare, if_neg hg] at h
    injection h with h'
    subst h'
    push_neg at hg
    obtain ⟨hAv, hAf, hBv, hBf⟩ := hg
    subst hB
    refine ⟨rfl, ?_, ?_, ?_, ?_⟩
    · intro v hv
      exact List.mem_append_left _ hv
    · intro p hp
      exact le_listMax _ _ (List.mem_map_of_mem _ hp)
    · have hmape : ((samplePoints A d).map (fun p => queryDist ⟨B⟩ (toR p))) ≠ [] := by
        intro hc
        exact hAv (List.append_eq_nil.mp (List.map_eq_nil_iff.mp hc)).1
      have hmm := listMax_mem _ hmape
      obtain ⟨p, hp, he⟩ := List.mem_map.mp hmm
      exact ⟨p, hp, he.symm⟩
    · intro p hp
      exact queryDist_spec B (toR p) hBf

/-- The comparison of the sample triangle with itself evaluates to the zero
result. -/
theorem compare_triMesh_self :
    compare triMesh triMesh ⟨triMesh⟩ ⟨triMesh⟩ 0 = .ok ⟨0, 0, 0⟩ := by
  have hz := directedDist_self_zero triMesh 0 (by decide) (by decide) (by decide)
  have hguard : ¬ (triMesh.vertices = [] ∨ triMesh.faces = [] ∨
      triMesh.vertices = [] ∨ triMesh.faces = []) := by decide
  simp only [compare, if_neg hguard, hz, max_self]

/-- Witness for C2 at the concrete triangle compared with itself. -/
theorem compare_hausdorff_spec_witness :
    ∃ p ∈ samplePoints triMesh 0,
      (0:ℝ) = queryDist ⟨triMesh⟩ (toR p) :=
  (compare_hausdorff_spec triMesh triMesh ⟨triMesh⟩ ⟨triMesh⟩ 0 ⟨0, 0, 0⟩ rfl
    compare_triMesh_self).2.2.2.1

/-! ### Counterexamples: stray vertices and distance ties -/

/-- A mesh with a stray vertex at (5,0,0) referenced by no face. -/
def strayMesh : Mesh :=
  ⟨[(0, 0, 0), (1, 0, 0), (0, 1, 0), (5, 0, 0)], [(0, 1, 2)]⟩

/-- On a single-face mesh the query distance is the distance to that face. -/
theorem queryDist_single (m : Mesh) (f0 : Face) (h : m.faces = [f0])
    (p : RVec3) : queryDist ⟨m⟩ p = faceDist m p f0 := by
  simp [queryDist, nearestPrimitive, h, withIdx, nearestList, nearFold]

/-- The stray point (5,0,0) is at distance 4 from the standard triangle. -/
theorem strayDist :
    triDist (5, 0, 0) (0, 0, 0) (1, 0, 0) ((0:ℝ), 1, 0) = 4 := by
  apply le_antisymm
  · have hb := triDist_le (5, 0, 0) (0, 0, 0) (1, 0, 0) ((0:ℝ), 1, 0)
      (1, 0, 0) (corner_b _ _ _)
    have hn : normR (((5:ℝ), 0, 0) - (1, 0, 0)) = 4 := by
      show Real.sqrt (dotR _ _) = 4
      have hd : dotR (((5:ℝ), 0, 0) - (1, 0, 0)) (((5:ℝ), 0, 0) - (1, 0, 0)) = 16 := by
        norm_num [dotR, Prod.mk_sub_mk]
      rw [hd, show (16:ℝ) = 4 ^ 2 by norm_num, Real.sqrt_sq (by norm_num : (0:ℝ) ≤ 4)]
    rw [hn] at hb
    exact hb
  · refine le_csInf (triDistSet_nonempty _ _ _ _) ?_
    rintro dd ⟨q, ⟨u, v, hu, hv, huv, rfl⟩, rfl⟩
    rw [triPt_std]
    show (4:ℝ) ≤ Real.sqrt (dotR _ _)
    have h16 : (16:ℝ) ≤ dotR (((5:ℝ), 0, 0) - (u, v, 0)) (((5:ℝ), 0, 0) - (u, v, 0)) := by
      simp only [dotR, Prod.mk_sub_mk]
      nlinarith [mul_nonneg (by linarith : (0:ℝ) ≤ 1 - u) (by linarith : (0:ℝ) ≤ 9 - u),
        mul_self_nonneg ((0:ℝ) - v)]
    calc (4:ℝ) = Real.sqrt 16 := by
          rw [show (16:ℝ) = 4 ^ 2 by norm_num, Real.sqrt_sq (by norm_num : (0:ℝ) ≤ 4)]
      _ ≤ Real.sqrt (dotR _ _) := Real.sqrt_le_sqrt h16

/-- C1 counterexample: on `strayMesh`, whose stray vertex lies on no face,
comparing the mesh with itself (its own spatial index on both sides) yields
the symmetric distance 4, not 0. -/
theorem compare_self_not_zero :
    compare strayMesh strayMesh ⟨strayMesh⟩ ⟨strayMesh⟩ 0 = .ok ⟨4, 4, 4⟩ ∧
    (4:ℝ) ≠ 0 := by
  constructor
  · have hface : ∀ p : RVec3, faceDist strayMesh p (0, 1, 2)
        = triDist p (0, 0, 0) (1, 0, 0) ((0:ℝ), 1, 0) := by
      intro p
      show triDist p (toR (strayMesh.pos 0)) (toR (strayMesh.pos 1))
          (toR (strayMesh.pos 2)) = _
      norm_num [Mesh.pos, strayMesh, toR]
    have hq : ∀ p : Vec3, queryDist ⟨strayMesh⟩ (toR p)
        = triDist (toR p) (0, 0, 0) (1, 0, 0) ((0:ℝ), 1, 0) := by
      intro p
      rw [queryDist_single strayMesh (0, 1, 2) rfl, hface]
    have h0 : queryDist ⟨strayMesh⟩ (toR (0, 0, 0)) = 0 := by
      rw [hq, show toR (0, 0, 0) = ((0:ℝ), 0, 0) by norm_num [toR]]
      exact triDist_eq_zero_of_mem _ _ _ _ (corner_a _ _ _)
    have h1 : queryDist ⟨strayMesh⟩ (toR (1, 0, 0)) = 0 := by
      rw [hq, show toR (1, 0, 0) = ((1:ℝ), 0, 0) by norm_num [toR]]
      exact triDist_eq_zero_of_mem _ _ _ _ (corner_b _ _ _)
    have h2 : queryDist ⟨strayMesh⟩ (toR (0, 1, 0)) = 0 := by
      rw [hq, show toR (0, 1, 0) = ((0:ℝ), 1, 0) by norm_num [toR]]
      exact triDist_eq_zero_of_mem _ _ _ _ (corner_c _ _ _)
    have h3 : queryDist ⟨strayMesh⟩ (toR (5, 0, 0)) = 4 := by
      rw [hq, show toR (5, 0, 0) = ((5:ℝ), 0, 0) by norm_num [toR]]
      exact strayDist
    have hD : directedDist strayMesh ⟨strayMesh⟩ 0 = 4 := by
      show listMax ((samplePoints strayMesh 0).map
        (fun p => queryDist ⟨strayMesh⟩ (toR p))) = 4
      rw [show samplePoints strayMesh 0
          = [(0, 0, 0), (1, 0, 0), (0, 1, 0), (5, 0, 0)] from rfl]
      simp only [List.map_cons, List.map_nil, h0, h1, h2, h3]
      show ([(0:ℝ), 0, 4]).foldl max 0 = 4
      simp only [List.foldl]
      rw [max_self, max_self]
      exact max_eq_right (by norm_num)
    have hguard : ¬ (strayMesh.vertices = [] ∨ strayMesh.faces = [] ∨
        strayMesh.vertices = [] ∨ strayMesh.faces = []) := by decide
    simp only [compare, if_neg hguard, hD, max_self]
  · norm_num

/-- C9 (amended): for every mesh and every query point coinciding with a
vertex that has at least one incident face, building the index and querying
the nearest primitive returns some face together with the exact distance 0,
and the query point lies on the returned face (the returned face need not be
incident to the vertex). -/
theorem nearest_vertex_query (m : Mesh) (ix : SpatialIndex)
    (hix : build_index m = .ok ix) (i : ℕ) (f : Face)
    (hf : f ∈ m.faces) (hinc : incidentTo i f) :
    ∃ j, ∃ hj : j < m.faces.length,
      nearestPrimitive ix (toR (m.pos i)) = some (j, 0) ∧
      faceDist m (toR (m.pos i)) (m.faces.get ⟨j, hj⟩) = 0 := by
  have hxm : ix = ⟨m⟩ := by
    by_cases hg : m.vertices = [] ∨ m.faces = []
    · rw [build_index, if_pos hg] at hix
      exact Except.noConfusion hix
    · rw [build_index, if_neg hg] at hix
      injection hix with h'
      exact h'.symm
  subst hxm
  have hne : m.faces ≠ [] := by
    intro hc
    rw [hc] at hf
    cases hf
  obtain ⟨j, dd, hsome, ⟨hj, hdd⟩, hub⟩ :=
    nearestPrimitive_spec m (toR (m.pos i)) hne
  have h0 : faceDist m (toR (m.pos i)) f = 0 :=
    faceDist_zero_of_incident m i f hinc
  have hd0 : dd = 0 := by
    refine le_antisymm ?_ ?_
    · rw [← h0]
      exact hub f hf
    · rw [hdd]
      exact triDist_nonneg _ _ _ _
  refine ⟨j, hj, ?_, ?_⟩
  · rw [hsome, hd0]
  · rw [← hdd]
    exact hd0

/-- Witness for C9 (amended): querying `triMesh` at its vertex 0. -/
theorem nearest_vertex_query_witness :
    build_index triMesh = .ok ⟨triMesh⟩ ∧
    (∃ j, ∃ hj : j < triMesh.faces.length,
      nearestPrimitive ⟨triMesh⟩ (toR (triMesh.pos 0)) = some (j, 0) ∧
      faceDist triMesh (toR (triMesh.pos 0)) (triMesh.faces.get ⟨j, hj⟩) = 0) :=
  ⟨by rw [build_index, if_neg (by decide)],
    nearest_vertex_query triMesh ⟨triMesh⟩ (by rw [build_index, if_neg (by decide)])
      0 (0, 1, 2) (by decide) (by decide)⟩

/-- A mesh whose fourth vertex lies inside the first face while being
incident only to the second face: the two faces tie at distance 0. -/
def tieMesh : Mesh :=
  ⟨[(0, 0, 0), (1, 0, 0), (0, 1, 0), (1/4, 1/4, 0)], [(0, 1, 2), (3, 1, 2)]⟩

/-- C9 counterexample: the nearest-primitive query at vertex 3 of `tieMesh`
returns face 0 at distance 0, and face 0 is not incident to vertex 3. -/
theorem nearest_not_incident :
    nearestPrimitive ⟨tieMesh⟩ (toR (tieMesh.pos 3)) = some (0, 0) ∧
    ¬ incidentTo 3 (tieMesh.faces.getD 0 (0, 0, 0)) := by
  constructor
  · have hp : toR (tieMesh.pos 3) = ((1/4 : ℝ), 1/4, 0) := by
      norm_num [Mesh.pos, tieMesh, toR]
    have hd0 : faceDist tieMesh (toR (tieMesh.pos 3)) (0, 1, 2) = 0 := by
      show triDist (toR (tieMesh.pos 3)) (toR (tieMesh.pos 0))
          (toR (tieMesh.pos 1)) (toR (tieMesh.pos 2)) = 0
      rw [hp,
        show toR (tieMesh.pos 0) = ((0:ℝ), 0, 0) by norm_num [Mesh.pos, tieMesh, toR],
        show toR (tieMesh.pos 1) = ((1:ℝ), 0, 0) by norm_num [Mesh.pos, tieMesh, toR],
        show toR (tieMesh.pos 2) = ((0:ℝ), 1, 0) by norm_num [Mesh.pos, tieMesh, toR]]
      refine triDist_eq_zero_of_mem _ _ _ _
        ⟨1/4, 1/4, by norm_num, by norm_num, by norm_num, ?_⟩
      rw [triPt_std]
    have hd1 : faceDist tieMesh (toR (tieMesh.pos 3)) (3, 1, 2) = 0 :=
      triDist_eq_zero_of_mem _ _ _ _ (corner_a _ _ _)
    show nearestList ((withIdx 0 tieMesh.faces).map
      (fun e => (e.1, faceDist tieMesh (toR (tieMesh.pos 3)) e.2))) = some (0, 0)
    rw [show withIdx 0 tieMesh.faces = [(0, (0, 1, 2)), (1, (3, 1, 2))] from rfl]
    simp only [List.map_cons, List.map_nil]
    rw [hd0, hd1]
    show some (nearFold [(1, (0:ℝ))] (0, 0)) = some (0, 0)
    simp [nearFold]
  · decide

end Meshalyzer
